import Mathlib

/-!
Verification of the versioned-context merge-and-retry protocol of this
repository (shared helper library `CommonServerPython` and its test file
`CommonServerPython_test.py`).

The library file itself is not part of the source tree here; only its test
file is.  Where the library code is missing, the definitions below are
modelled from the specification (`spec.md`, §3–§7), constrained further by
the behaviour the repository's own tests pin down (`test_merge_lists`,
`test_set_latest_integration_context*`, `test_get_latest_integration_context`).
The in-test store `set_integration_context_versioned` is embedded directly
from the test file.
-/

set_option maxRecDepth 4000

namespace ContentCtx

/-- A JSON-ish scalar value, enough to express the entries handled by the
merge: strings, booleans and integers. -/
inductive JVal where
  | str (s : String)
  | bool (b : Bool)
  | num (n : Int)
  deriving DecidableEq, Repr

/-- Python truthiness of a `JVal`: the empty string, `False` and `0` are
falsy, everything else is truthy. -/
def JVal.truthy : JVal → Bool
  | .str s => !(s = "")
  | .bool b => b
  | .num n => !(n = 0)

/-- An entry of a list-valued context key: a JSON object, embedded as an
association list from field names to values (first binding wins). -/
abbrev Entry : Type := List (String × JVal)

/-- Field lookup in an entry (Python `element[key]` / `element.get(key)`). -/
def getField (e : Entry) (k : String) : Option JVal :=
  (e.find? fun p => decide (p.1 = k)).map Prod.snd

/-- Python `element.get('remove', False)` coerced to a boolean: true when the
entry carries a truthy `remove` field. -/
def isRemove (e : Entry) : Bool :=
  match getField e "remove" with
  | some v => v.truthy
  | none => false

/-- The first entry of `l` whose field `f` holds the id value `i`. -/
def findById (l : List Entry) (f : String) (i : JVal) : Option Entry :=
  l.find? fun e => decide (getField e f = some i)

/-- Modelled from the spec: one step of the merge-by-id of
`compute_merged` / `merge_lists` from the missing `CommonServerPython.py`
(§4.1: "for each entry in the update list, replace the existing entry
sharing the same id value, or append if no match exists"), extended with the
`remove`-field deletion that `test_merge_lists` pins down: an update entry
with a truthy `remove` field deletes every entry carrying its id instead of
being inserted. -/
def applyUpdate (f : String) (acc : List Entry) (u : Entry) : List Entry :=
  match getField u f with
  | none => acc
  | some idv =>
    if isRemove u then
      acc.filter fun e => !(decide (getField e f = some idv))
    else if acc.any fun e => decide (getField e f = some idv) then
      acc.map fun e => if getField e f = some idv then u else e
    else
      acc ++ [u]

/-- Modelled from the spec: the pure merge-by-id of the update list into the
original list (body of the missing `merge_lists`), processing update entries
in order. -/
def mergeCore (f : String) (original updated : List Entry) : List Entry :=
  updated.foldl (applyUpdate f) original

/-- The error taxonomy of spec §7 that the pure merge can raise:
`MergeKeyError` — an updates entry for a merge-by-id key is missing the
declared id field. -/
inductive MergeError where
  | mergeKeyError (k : String)
  deriving DecidableEq, Repr

/-- Modelled from the spec: `merge_lists(original, updated, key)` from the
missing `CommonServerPython.py`.  Every entry of the update list must carry
the declared id field, otherwise the merge fails fast with `MergeKeyError`
(§7); on success it merges by id as described in §4.1. -/
def merge_lists (original updated : List Entry) (key : String) :
    Except MergeError (List Entry) :=
  if updated.all fun e => (getField e key).isSome then
    .ok (mergeCore key original updated)
  else
    .error (.mergeKeyError key)

/-- A value stored under a top-level context key: either a list of entries
(candidate for merge-by-id) or an opaque scalar. -/
inductive CtxVal where
  | list (es : List Entry)
  | scalar (v : JVal)
  deriving DecidableEq, Repr

/-- The shared document content: a mapping from string keys to values,
embedded as an association list (first binding wins). -/
abbrev Content : Type := List (String × CtxVal)

/-- `MergeKeySpec` (spec §3): mapping from top-level key to the field name
uniquely identifying entries of that key's list value. -/
abbrev MergeKeySpec : Type := List (String × String)

/-- Key lookup in a content mapping. -/
def lookupC (c : Content) (k : String) : Option CtxVal :=
  (c.find? fun p => decide (p.1 = k)).map Prod.snd

/-- Key lookup in a merge-key spec. -/
def lookupS (s : MergeKeySpec) (k : String) : Option String :=
  (s.find? fun p => decide (p.1 = k)).map Prod.snd

/-- Store `v` under key `k`: replace the existing binding, or append a new
one. -/
def setKey (c : Content) (k : String) (v : CtxVal) : Content :=
  if c.any fun p => decide (p.1 = k) then
    c.map fun p => if p.1 = k then (k, v) else p
  else
    c ++ [(k, v)]

/-- Modelled from the spec: the per-key step of the missing `compute_merged`
(§4.1): if the spec declares an id field for the key and both the current
and the update value are lists, merge by id; otherwise the update value
fully replaces the current value. -/
def mergeOne (spec : MergeKeySpec) (current : Content) (acc : Content)
    (kv : String × CtxVal) : Except MergeError Content :=
  match lookupS spec kv.1, lookupC current kv.1, kv.2 with
  | some f, some (.list cur), .list upd => do
      let ml ← merge_lists cur upd f
      pure (setKey acc kv.1 (.list ml))
  | _, _, _ => pure (setKey acc kv.1 kv.2)

/-- Modelled from the spec: `compute_merged(current_content, updates,
merge_key_spec)` of §4.1 (realised by the missing
`update_integration_context`): each key present in `updates` is merged into
the current content, keys absent from `updates` are left untouched; pure and
deterministic. -/
def compute_merged (current updates : Content) (spec : MergeKeySpec) :
    Except MergeError Content :=
  updates.foldlM (mergeOne spec current) current

/-! ### The versioned store of the test file

`set_integration_context_versioned` is defined in
`src/Packs/Base/Scripts/CommonServerPython/CommonServerPython_test.py`
(lines 2411–2427); it is embedded here directly from that source. -/

/-- The global `INTEGRATION_CONTEXT_VERSIONED` record of the test file:
a stored context together with an integer version counter. -/
structure VStore where
  context : Content
  version : Int
  deriving DecidableEq, Repr

/-- The `ValueError('DB Insert version {} does not match version {}')`
raised by `set_integration_context_versioned`, carrying the store's current
version and the presented version. -/
inductive VErr where
  | dbInsertVersionMismatch (current presented : Int)
  deriving DecidableEq, Repr

/-- `set_integration_context_versioned(integration_context, version=-1)` from
the test file: if the presented `version` is not the sentinel `-1` and does
not exceed the store's current version, raise `ValueError`; otherwise store
the new context and bump the version counter by one. -/
def set_integration_context_versioned (st : VStore) (ctx : Content)
    (version : Int := -1) : Except VErr VStore :=
  let current := st.version
  if version ≠ -1 ∧ version ≤ current then
    .error (.dbInsertVersionMismatch current version)
  else
    .ok { context := ctx, version := current + 1 }

/-- A server version triple `major.minor.patch`. -/
abbrev ServerVersion : Type := Nat × Nat × Nat

/-- Lexicographic comparison of server version triples: `a` is at least `b`. -/
def versionGE (a b : ServerVersion) : Bool :=
  decide (b.1 < a.1) ||
    (decide (b.1 = a.1) &&
      (decide (b.2.1 < a.2.1) ||
        (decide (b.2.1 = a.2.1) && decide (b.2.2 ≤ a.2.2))))

/-- Modelled from the spec: `is_versioned_context_available` from the missing
`CommonServerPython.py` — the versioned store exists only from server
version 6.0.0 on (`test_is_versioned_context_available`: 5.5.0 → false,
6.0.0 → true). -/
def is_versioned_context_available (v : ServerVersion) : Bool :=
  versionGE v (6, 0, 0)

/-- Modelled from the spec: `get_integration_context_with_version` from the
missing `CommonServerPython.py` — read the current content together with its
version token; when the versioned store is unavailable, return the sentinel
version `-1` (`test_get_latest_integration_context`). -/
def get_integration_context_with_version (v : ServerVersion) (st : VStore) :
    Content × Int :=
  if is_versioned_context_available v then
    (st.context, st.version)
  else
    (st.context, -1)

/-! ### The retry protocol `set_to_integration_context_with_retries`

The protocol is deterministic once the external store's responses are fixed;
a run is embedded against an oracle assigning to every attempt index the
store's fetched snapshot and the outcome of that attempt's commit. -/

/-- The external store's behaviour on one attempt: the content and conflict
token returned by `fetch_latest`, and the result of the subsequent `commit`
(a fresh token, or a conflict). The token type `τ` is opaque to the
protocol (spec §3: integer counter or sequence-number/primary-term pair). -/
structure StoreStep (τ : Type) where
  fetched : Content
  token : τ
  commitResult : Except Unit τ

/-- An observable event of one protocol run: a `fetch_latest` returning
content and token, or a `commit` submitting merged content under a token
(`ok` records whether the store accepted it). -/
inductive Ev (τ : Type) where
  | fetch (c : Content) (t : τ)
  | commit (m : Content) (t : τ) (ok : Bool)

/-- Outcome of `set_to_integration_context_with_retries`: the token of the
successful commit, `ContextUpdateExhausted` carrying the number of attempts
made, or a fail-fast merge error. -/
inductive RetryResult (τ : Type) where
  | success (t : τ)
  | contextUpdateExhausted (attempts : Nat)
  | mergeError (e : MergeError)

/-- Modelled from the spec: the retry loop of the missing
`set_to_integration_context_with_retries` (§4.1 protocol steps 1–6):
fetch, merge against the freshly fetched content, attempt the commit; on
conflict start over with the next attempt, until the attempt budget runs
out.  Returns the full event trace together with the outcome.  `done`
counts the attempts already made. -/
def retryGo (store : Nat → StoreStep τ) (updates : Content)
    (spec : MergeKeySpec) : Nat → Nat → List (Ev τ) × RetryResult τ
  | 0, done => ([], .contextUpdateExhausted done)
  | fuel + 1, done =>
    let st := store done
    match compute_merged st.fetched updates spec with
    | .error e => ([.fetch st.fetched st.token], .mergeError e)
    | .ok merged =>
      match st.commitResult with
      | .ok t => ([.fetch st.fetched st.token, .commit merged st.token true],
                  .success t)
      | .error _ =>
        let r := retryGo store updates spec fuel (done + 1)
        (.fetch st.fetched st.token :: .commit merged st.token false :: r.1,
         r.2)

/-- Modelled from the spec: `set_to_integration_context_with_retries(updates,
merge_key_spec, max_attempts)` — run the retry loop with a budget of
`maxAttempts` total attempts. -/
def set_to_integration_context_with_retries (store : Nat → StoreStep τ)
    (updates : Content) (spec : MergeKeySpec) (maxAttempts : Nat) :
    List (Ev τ) × RetryResult τ :=
  retryGo store updates spec maxAttempts 0

/-- Number of `commit` events of a trace. -/
def countCommits (tr : List (Ev τ)) : Nat :=
  tr.countP fun e => match e with
    | .commit _ _ _ => true
    | _ => false

/-- Number of `fetch` events of a trace. -/
def countFetches (tr : List (Ev τ)) : Nat :=
  tr.countP fun e => match e with
    | .fetch _ _ => true
    | _ => false

/-- A trace is fresh for `updates` and `spec` when every `commit` event
immediately follows the `fetch` event it was computed from: the committed
content is `compute_merged` of the content of that fetch, and the committed
token is that fetch's token.  A trailing lone fetch (fail-fast merge error)
is allowed. -/
inductive FreshTrace (updates : Content) (spec : MergeKeySpec) :
    List (Ev τ) → Prop
  | nil : FreshTrace updates spec []
  | fetchOnly (c : Content) (t : τ) : FreshTrace updates spec [.fetch c t]
  | step (c : Content) (t : τ) (m : Content) (b : Bool) (rest : List (Ev τ)) :
      compute_merged c updates spec = .ok m →
      FreshTrace updates spec rest →
      FreshTrace updates spec (.fetch c t :: .commit m t b :: rest)

/-! ### Concrete data from `test_merge_lists` and spec §8

The entries of the `test_merge_lists` scenario (ids 1, 2 and 11 present, the
update replaces id 1, appends id 3 and remove-marks id 11). -/

/-- Original entry of id 1 (`{'id': '1', 'updated': 'n'}`). -/
def tOld1 : Entry := [("id", .str "1"), ("updated", .str "n")]

/-- Original entry of id 2 (`{'id': '2', 'updated': 'n'}`). -/
def tOld2 : Entry := [("id", .str "2"), ("updated", .str "n")]

/-- Original entry of id 11 (`{'id': '11', 'updated': 'n'}`). -/
def tOld11 : Entry := [("id", .str "11"), ("updated", .str "n")]

/-- Update entry of id 1 (`{'id': '1', 'updated': 'y'}`). -/
def tNew1 : Entry := [("id", .str "1"), ("updated", .str "y")]

/-- Update entry of id 3 (`{'id': '3', 'updated': 'y'}`). -/
def tNew3 : Entry := [("id", .str "3"), ("updated", .str "y")]

/-- Remove-marked update entry of id 11
(`{'id': '11', 'updated': 'n', 'remove': True}`). -/
def tRem11 : Entry := [("id", .str "11"), ("updated", .str "n"), ("remove", .bool true)]

/-- Remove-marked update entry of id 1. -/
def tRem1 : Entry := [("id", .str "1"), ("remove", .bool true)]

/-- The current content of the `test_merge_lists` scenario. -/
def tCurrent : Content := [("mirrors", .list [tOld1, tOld2, tOld11])]

/-- The updates of the `test_merge_lists` scenario. -/
def tUpdates : Content := [("mirrors", .list [tNew1, tNew3, tRem11])]

/-- The merge-key spec of the scenario (`OBJECTS_TO_KEYS`-style, id field
`id`). -/
def tSpec : MergeKeySpec := [("mirrors", "id")]

/-- The expected merged list of `test_merge_lists`. -/
def tExpected : List Entry := [tNew1, tOld2, tNew3]

/-- A store that reports a conflict on every commit (integer tokens). -/
def alwaysConflictStore : Nat → StoreStep Int := fun _ => ⟨[], 0, .error ()⟩

/-- A store that conflicts on the first attempt and accepts the second with
token 7. -/
def twoStepStore : Nat → StoreStep Int := fun i =>
  if i = 0 then ⟨[], 0, .error ()⟩ else ⟨[], 1, .ok 7⟩

/-- A store whose document binds `mirrors` to a list, so that a malformed
update entry for `mirrors` trips the merge validation. -/
def mirrorsStore : Nat → StoreStep Int := fun _ =>
  ⟨[("mirrors", .list [tOld1])], 0, .ok 1⟩

/-- Current content with one mirror of id 1. -/
def remCurrent : Content := [("mirrors", .list [tOld1])]

/-- Updates only remove-marking the existing id 1. -/
def remUpdates : Content := [("mirrors", .list [tRem1])]

/-- Updates replacing id 1 and appending id 3, with no remove marks. -/
def growUpdates : Content := [("mirrors", .list [tNew1, tNew3])]

/-- Updates whose single `mirrors` entry is missing the declared id field. -/
def badUpdates : Content := [("mirrors", .list [[("updated", .str "y")]])]

/-! ### Lemmas about the pure merge -/

/-- `find?` ignores a `filter` whose predicate is implied by the search
predicate. -/
theorem find?_filter_of_imp {α : Type} (p q : α → Bool) (l : List α)
    (h : ∀ x, p x = true → q x = true) :
    (l.filter q).find? p = l.find? p := by
  induction l with
  | nil => rfl
  | cons a t ih =>
    by_cases hq : q a = true
    · cases hp : p a <;>
        simp [List.filter_cons, hq, List.find?_cons, hp, ih]
    · have hp : p a = false := by
        cases hpa : p a
        · rfl
        · exact absurd (h a hpa) hq
      simp [List.filter_cons, hq, List.find?_cons, hp, ih]

/-- `find?` ignores a `map` that fixes every element satisfying the search
predicate and preserves the predicate everywhere. -/
theorem find?_map_invariant {α : Type} (p : α → Bool) (g : α → α) (l : List α)
    (h1 : ∀ x, p (g x) = p x) (h2 : ∀ x, p x = true → g x = x) :
    (l.map g).find? p = l.find? p := by
  induction l with
  | nil => rfl
  | cons a t ih =>
    cases hpa : p a
    · have : p (g a) = false := (h1 a).trans hpa
      simp [List.find?_cons, hpa, this, ih]
    · have : p (g a) = true := (h1 a).trans hpa
      simp [List.find?_cons, hpa, this, h2 a hpa]

/-- Replacing the entries of id `i` by `u` (which carries id `i`) makes `u`
the entry found at id `i`, provided some entry of id `i` exists. -/
theorem find?_map_replace (f : String) (i : JVal) (u : Entry)
    (hu : getField u f = some i) (acc : List Entry)
    (hany : (acc.any fun e => decide (getField e f = some i)) = true) :
    ((acc.map fun e => if getField e f = some i then u else e).find?
      fun e => decide (getField e f = some i)) = some u := by
  induction acc with
  | nil => simp at hany
  | cons a t ih =>
    by_cases hpa : getField a f = some i
    · simp [List.find?_cons, hpa, hu]
    · have hlat : (t.any fun e => decide (getField e f = some i)) = true := by
        rcases List.any_eq_true.mp hany with ⟨x, hx, hxp⟩
        rcases List.mem_cons.mp hx with rfl | hxt
        · exact absurd (of_decide_eq_true hxp) hpa
        · exact List.any_eq_true.mpr ⟨x, hxt, hxp⟩
      simpa [List.find?_cons, hpa] using ih hlat

/-- An update entry whose id differs from `i` does not change which entry is
found at id `i`. -/
theorem findById_applyUpdate_ne (f : String) (acc : List Entry) (u : Entry)
    (i : JVal) (h : getField u f ≠ some i) :
    findById (applyUpdate f acc u) f i = findById acc f i := by
  unfold applyUpdate
  cases hg : getField u f with
  | none => rfl
  | some idv =>
    have hne : idv ≠ i := by
      intro hcontra; exact h (hg.trans (by rw [hcontra]))
    cases hr : isRemove u with
    | true =>
      simp only [hr, if_true]
      exact find?_filter_of_imp _ _ acc fun x hx => by
        have hxi : getField x f = some i := of_decide_eq_true hx
        simp [hxi, hne.symm]
    | false =>
      simp only [hr, Bool.false_eq_true, if_false]
      cases hany : (acc.any fun e => decide (getField e f = some idv)) with
      | true =>
        simp only [hany, if_true]
        exact find?_map_invariant _ _ acc
          (fun x => by
            by_cases hx : getField x f = some idv
            · simp [hx, hg, hne]
            · simp [hx])
          (fun x hx => by
            have hxi : getField x f = some i := of_decide_eq_true hx
            simp [hxi, hne.symm])
      | false =>
        simp only [hany, Bool.false_eq_true, if_false]
        unfold findById
        rw [List.find?_append]
        have : ((([u] : List Entry)).find? fun e =>
            decide (getField e f = some i)) = none := by
          simp [List.find?_cons, hg, hne]
        rw [this, Option.or_none]

/-- A non-remove update entry with id `i` becomes the entry found at id `i`. -/
theorem findById_applyUpdate_self (f : String) (acc : List Entry) (u : Entry)
    (i : JVal) (hu : getField u f = some i) (hr : isRemove u = false) :
    findById (applyUpdate f acc u) f i = some u := by
  unfold applyUpdate
  rw [hu]
  simp only [hr, Bool.false_eq_true, if_false]
  cases hany : (acc.any fun e => decide (getField e f = some i)) with
  | true =>
    simp only [hany, if_true]
    exact find?_map_replace f i u hu acc hany
  | false =>
    simp only [hany, Bool.false_eq_true, if_false]
    unfold findById
    rw [List.find?_append]
    have hnone : (acc.find? fun e => decide (getField e f = some i)) = none := by
      rw [List.find?_eq_none]
      intro x hx hpx
      have hcontra : (acc.any fun e => decide (getField e f = some i)) = true :=
        List.any_eq_true.mpr ⟨x, hx, hpx⟩
      rw [hany] at hcontra
      exact Bool.false_ne_true hcontra
    simp [hnone, List.find?_cons, hu]

/-- A remove-marked update entry with id `i` deletes every entry found at
id `i`. -/
theorem findById_applyUpdate_remove (f : String) (acc : List Entry) (u : Entry)
    (i : JVal) (hu : getField u f = some i) (hr : isRemove u = true) :
    findById (applyUpdate f acc u) f i = none := by
  unfold applyUpdate
  rw [hu]
  simp only [hr, if_true]
  unfold findById
  rw [List.find?_eq_none]
  intro x hx hpx
  have := (List.mem_filter.mp hx).2
  simp [of_decide_eq_true hpx] at this

/-- An entry whose id is touched by no update entry survives the whole merge
unchanged. -/
theorem mem_mergeCore_of_untouched (f : String) (cur upd : List Entry)
    (e : Entry) (he : e ∈ cur)
    (h : ∀ u ∈ upd, getField u f ≠ getField e f) :
    e ∈ mergeCore f cur upd := by
  induction upd generalizing cur with
  | nil => exact he
  | cons u rest ih =>
    refine ih (applyUpdate f cur u) ?_ fun v hv => h v (List.mem_cons_of_mem _ hv)
    have hne : getField u f ≠ getField e f := h u (List.mem_cons_self _ _)
    unfold applyUpdate
    cases hg : getField u f with
    | none => exact he
    | some idv =>
      have hei : getField e f ≠ some idv := fun hcontra =>
        hne (hg.trans (hcontra.symm ▸ rfl))
      by_cases hr : isRemove u = true
      · simp only [hr, if_true]
        exact List.mem_filter.mpr ⟨he, by simp [hei]⟩
      · simp only [hr, if_false]
        by_cases hany : (cur.any fun x => decide (getField x f = some idv)) = true
        · simp only [hany, if_true]
          exact List.mem_map.mpr ⟨e, he, by simp [hei]⟩
        · simp only [hany, if_false]
          exact List.mem_append_left _ he

/-- Updates touching only other ids leave the entry found at id `i`
unchanged. -/
theorem findById_mergeCore_of_untouched (f : String) (cur upd : List Entry)
    (i : JVal) (h : ∀ u ∈ upd, getField u f ≠ some i) :
    findById (mergeCore f cur upd) f i = findById cur f i := by
  induction upd generalizing cur with
  | nil => rfl
  | cons u rest ih =>
    have := findById_applyUpdate_ne f cur u i (h u (List.mem_cons_self _ _))
    exact (ih (applyUpdate f cur u)
      fun v hv => h v (List.mem_cons_of_mem _ hv)).trans this

/-- After merging, the entry found at id `i` is the last non-remove update
entry carrying id `i`, provided no later update entry carries that id. -/
theorem findById_mergeCore_update (f : String) (cur pre post : List Entry)
    (u : Entry) (i : JVal) (hu : getField u f = some i)
    (hr : isRemove u = false)
    (hpost : ∀ v ∈ post, getField v f ≠ some i) :
    findById (mergeCore f cur (pre ++ u :: post)) f i = some u := by
  unfold mergeCore
  rw [List.foldl_append]
  show findById (mergeCore f (List.foldl (applyUpdate f) cur pre) (u :: post)) f i = some u
  unfold mergeCore
  show findById (List.foldl (applyUpdate f)
    (applyUpdate f (List.foldl (applyUpdate f) cur pre) u) post) f i = some u
  exact (findById_mergeCore_of_untouched f _ post i hpost).trans
    (findById_applyUpdate_self f _ u i hu hr)

/-- After merging, no entry is found at id `i` when the last update entry
carrying id `i` is remove-marked. -/
theorem findById_mergeCore_remove (f : String) (cur pre post : List Entry)
    (u : Entry) (i : JVal) (hu : getField u f = some i)
    (hr : isRemove u = true)
    (hpost : ∀ v ∈ post, getField v f ≠ some i) :
    findById (mergeCore f cur (pre ++ u :: post)) f i = none := by
  unfold mergeCore
  rw [List.foldl_append]
  show findById (List.foldl (applyUpdate f)
    (applyUpdate f (List.foldl (applyUpdate f) cur pre) u) post) f i = none
  exact (findById_mergeCore_of_untouched f _ post i hpost).trans
    (findById_applyUpdate_remove f _ u i hu hr)

/-- Without remove-marked update entries, one merge step never shrinks the
list. -/
theorem length_le_applyUpdate (f : String) (acc : List Entry) (u : Entry)
    (hr : isRemove u = false) :
    acc.length ≤ (applyUpdate f acc u).length := by
  unfold applyUpdate
  cases hg : getField u f with
  | none => exact le_refl _
  | some idv =>
    simp only [hr, Bool.false_eq_true, if_false]
    by_cases hany : (acc.any fun e => decide (getField e f = some idv)) = true
    · simp [hany]
    · simp [hany]

/-- Without remove-marked update entries, the merge never shrinks the list. -/
theorem length_le_mergeCore (f : String) (cur upd : List Entry)
    (h : ∀ u ∈ upd, isRemove u = false) :
    cur.length ≤ (mergeCore f cur upd).length := by
  induction upd generalizing cur with
  | nil => exact le_refl _
  | cons u rest ih =>
    exact le_trans (length_le_applyUpdate f cur u (h u (List.mem_cons_self _ _)))
      (ih (applyUpdate f cur u) fun v hv => h v (List.mem_cons_of_mem _ hv))

/-! ### Lemmas about `compute_merged` -/

/-- Looking up the key just stored finds the stored value. -/
theorem lookupC_setKey_self (c : Content) (k : String) (v : CtxVal) :
    lookupC (setKey c k v) k = some v := by
  unfold setKey
  cases hany : (c.any fun p => decide (p.1 = k)) with
  | true =>
    simp only [hany, if_true]
    unfold lookupC
    have : ((c.map fun p => if p.1 = k then (k, v) else p).find?
        fun p => decide (p.1 = k)) = some (k, v) := by
      induction c with
      | nil => simp at hany
      | cons a t ih =>
        by_cases hpa : a.1 = k
        · simp [List.find?_cons, hpa]
        · have hlat : (t.any fun p => decide (p.1 = k)) = true := by
            rcases List.any_eq_true.mp hany with ⟨x, hx, hxp⟩
            rcases List.mem_cons.mp hx with rfl | hxt
            · exact absurd (of_decide_eq_true hxp) hpa
            · exact List.any_eq_true.mpr ⟨x, hxt, hxp⟩
          simpa [List.find?_cons, hpa] using ih hlat
    rw [this]
    rfl
  | false =>
    simp only [hany, Bool.false_eq_true, if_false]
    unfold lookupC
    rw [List.find?_append]
    have hnone : (c.find? fun p => decide (p.1 = k)) = none := by
      rw [List.find?_eq_none]
      intro x hx hpx
      have hcontra : (c.any fun p => decide (p.1 = k)) = true :=
        List.any_eq_true.mpr ⟨x, hx, hpx⟩
      rw [hany] at hcontra
      exact Bool.false_ne_true hcontra
    simp [hnone, List.find?_cons]

/-- Storing under key `k` leaves every other key's binding unchanged. -/
theorem lookupC_setKey_ne (c : Content) (k k' : String) (v : CtxVal)
    (hk : k' ≠ k) : lookupC (setKey c k v) k' = lookupC c k' := by
  unfold setKey
  cases hany : (c.any fun p => decide (p.1 = k)) with
  | true =>
    simp only [hany, if_true]
    unfold lookupC
    rw [find?_map_invariant _ _ c
      (fun x => by
        by_cases hx : x.1 = k
        · simp [hx, Ne.symm hk]
        · simp [hx])
      (fun x hx => by
        have : x.1 = k' := of_decide_eq_true hx
        simp [this, hk])]
  | false =>
    simp only [hany, Bool.false_eq_true, if_false]
    unfold lookupC
    rw [List.find?_append]
    have : ((([(k, v)] : Content)).find? fun p => decide (p.1 = k')) = none := by
      simp [List.find?_cons, Ne.symm hk]
    rw [this, Option.or_none]

/-- A successful `mergeOne` step only rewrites the binding of its own key. -/
theorem mergeOne_ok_setKey (spec : MergeKeySpec) (current acc acc' : Content)
    (kv : String × CtxVal) (h : mergeOne spec current acc kv = .ok acc') :
    ∃ v, acc' = setKey acc kv.1 v := by
  unfold mergeOne at h
  split at h
  · rename_i f cur upd hS hC hV
    cases hm : merge_lists cur upd f with
    | error e => rw [hm] at h; exact absurd h (by simp [Bind.bind, Except.bind])
    | ok ml =>
      rw [hm] at h
      refine ⟨.list ml, ?_⟩
      have : (Except.ok (setKey acc kv.1 (.list ml)) :
          Except MergeError Content) = .ok acc' := h
      exact (Except.ok.inj this).symm
  · exact ⟨kv.2, (Except.ok.inj h).symm⟩

/-- A successful fold of `mergeOne` steps over keys other than `k` leaves
the binding of `k` unchanged. -/
theorem foldlM_mergeOne_preserve (spec : MergeKeySpec) (current : Content)
    (l : List (String × CtxVal)) (acc m : Content) (k : String)
    (h : List.foldlM (mergeOne spec current) acc l = .ok m)
    (hk : ∀ kv ∈ l, kv.1 ≠ k) :
    lookupC m k = lookupC acc k := by
  induction l generalizing acc with
  | nil => cases h; rfl
  | cons x t ih =>
    rw [List.foldlM_cons] at h
    cases hx : mergeOne spec current acc x with
    | error e => rw [hx] at h; exact absurd h (by simp [Bind.bind, Except.bind])
    | ok a' =>
      rw [hx] at h
      have hrec : List.foldlM (mergeOne spec current) a' t = .ok m := h
      have h1 := ih a' hrec fun kv hkv => hk kv (List.mem_cons_of_mem _ hkv)
      rcases mergeOne_ok_setKey spec current acc a' x hx with ⟨v, rfl⟩
      rw [h1, lookupC_setKey_ne _ _ _ _ (Ne.symm (hk x (List.mem_cons_self _ _)))]

/-- A successful fold of `mergeOne` steps decomposes around any chosen
element of the key list. -/
theorem foldlM_mergeOne_decomp (spec : MergeKeySpec) (current : Content)
    (l₁ l₂ : List (String × CtxVal)) (x : String × CtxVal) (acc m : Content)
    (h : List.foldlM (mergeOne spec current) acc (l₁ ++ x :: l₂) = .ok m) :
    ∃ a₁ a₂, List.foldlM (mergeOne spec current) acc l₁ = .ok a₁ ∧
      mergeOne spec current a₁ x = .ok a₂ ∧
      List.foldlM (mergeOne spec current) a₂ l₂ = .ok m := by
  induction l₁ generalizing acc with
  | nil =>
    rw [List.nil_append, List.foldlM_cons] at h
    cases hx : mergeOne spec current acc x with
    | error e => rw [hx] at h; exact absurd h (by simp [Bind.bind, Except.bind])
    | ok a₂ =>
      rw [hx] at h
      exact ⟨acc, a₂, rfl, hx, h⟩
  | cons y t ih =>
    rw [List.cons_append, List.foldlM_cons] at h
    cases hy : mergeOne spec current acc y with
    | error e => rw [hy] at h; exact absurd h (by simp [Bind.bind, Except.bind])
    | ok a' =>
      rw [hy] at h
      rcases ih a' h with ⟨a₁, a₂, h1, h2, h3⟩
      exact ⟨a₁, a₂, by rw [List.foldlM_cons, hy]; exact h1, h2, h3⟩

/-- A successful `merge_lists` yields exactly the pure merge-by-id. -/
theorem merge_lists_ok (original updated : List Entry) (key : String)
    (ml : List Entry) (h : merge_lists original updated key = .ok ml) :
    ml = mergeCore key original updated := by
  unfold merge_lists at h
  split at h
  · exact (Except.ok.inj h).symm
  · exact absurd h (by simp)

/-- Decomposition of a content mapping at a key it binds, given distinct
keys. -/
theorem lookupC_decomp (c : Content) (k : String) (v : CtxVal)
    (hnd : (c.map Prod.fst).Nodup) (h : lookupC c k = some v) :
    ∃ pre post, c = pre ++ (k, v) :: post ∧
      (∀ kv ∈ pre, kv.1 ≠ k) ∧ (∀ kv ∈ post, kv.1 ≠ k) := by
  unfold lookupC at h
  cases hf : c.find? fun p => decide (p.1 = k) with
  | none => rw [hf] at h; cases h
  | some p =>
    rw [hf] at h
    have hps := List.find?_some hf
    have hp1 : p.1 = k := of_decide_eq_true hps
    have hp2 : p.2 = v := Option.some.inj h
    have hmem : p ∈ c := List.mem_of_find?_eq_some hf
    have hpkv : p = (k, v) := by
      rcases p with ⟨p1, p2⟩
      simp only at hp1 hp2
      rw [hp1, hp2]
    rcases List.append_of_mem hmem with ⟨pre, post, hc⟩
    rw [hpkv] at hc
    refine ⟨pre, post, hc, ?_, ?_⟩
    · intro kv hkv hkv1
      have : (c.map Prod.fst).Nodup := hnd
      rw [hc, List.map_append, List.map_cons] at this
      rcases List.nodup_append.mp this with ⟨-, -, hdisj⟩
      exact hdisj (List.mem_map.mpr ⟨kv, hkv, hkv1⟩) (List.mem_cons_self _ _)
    · intro kv hkv hkv1
      have : (c.map Prod.fst).Nodup := hnd
      rw [hc, List.map_append, List.map_cons] at this
      have hkpost := (List.nodup_cons.mp (this.of_append_right)).1
      exact hkpost (List.mem_map.mpr ⟨kv, hkv, hkv1⟩)

/-- The central decomposition: a successful `compute_merged` stores at every
merge-by-id key exactly the pure merge-by-id of the current and update
lists, and that merge validated (every update entry carries the id field). -/
theorem compute_merged_lookup_merge (current updates : Content)
    (spec : MergeKeySpec) (k f : String) (cur upd : List Entry) (m : Content)
    (hnd : (updates.map Prod.fst).Nodup)
    (hup : lookupC updates k = some (.list upd))
    (hspec : lookupS spec k = some f)
    (hcur : lookupC current k = some (.list cur))
    (hok : compute_merged current updates spec = .ok m) :
    merge_lists cur upd f = .ok (mergeCore f cur upd) ∧
      lookupC m k = some (.list (mergeCore f cur upd)) := by
  rcases lookupC_decomp updates k (.list upd) hnd hup with
    ⟨pre, post, hupdates, hpre, hpost⟩
  unfold compute_merged at hok
  rw [hupdates] at hok
  rcases foldlM_mergeOne_decomp spec current pre post _ current m hok with
    ⟨a₁, a₂, h1, h2, h3⟩
  unfold mergeOne at h2
  rw [show ((k, CtxVal.list upd) : String × CtxVal).1 = k from rfl] at h2
  simp only [hspec, hcur] at h2
  cases hm : merge_lists cur upd f with
  | error e =>
    rw [hm] at h2
    exact absurd h2 (by simp [Bind.bind, Except.bind])
  | ok ml =>
    have hml : ml = mergeCore f cur upd := merge_lists_ok cur upd f ml hm
    rw [hm] at h2
    have ha₂ : a₂ = setKey a₁ k (.list ml) := by
      have : (Except.ok (setKey a₁ k (.list ml)) :
          Except MergeError Content) = .ok a₂ := h2
      exact (Except.ok.inj this).symm
    constructor
    · rw [hml]
    · rw [foldlM_mergeOne_preserve spec current post a₂ m k h3 hpost, ha₂, hml,
        lookupC_setKey_self]

/-! ### Lemmas about the retry protocol -/

/-- A fetch event does not count as a commit. -/
theorem countCommits_cons_fetch (τ : Type) (c : Content) (t : τ)
    (tr : List (Ev τ)) : countCommits (.fetch c t :: tr) = countCommits tr := by
  simp [countCommits, List.countP_cons]

/-- A commit event adds one to the commit count. -/
theorem countCommits_cons_commit (τ : Type) (m : Content) (t : τ) (b : Bool)
    (tr : List (Ev τ)) :
    countCommits (.commit m t b :: tr) = countCommits tr + 1 := by
  simp [countCommits, List.countP_cons]

/-- A fetch event adds one to the fetch count. -/
theorem countFetches_cons_fetch (τ : Type) (c : Content) (t : τ)
    (tr : List (Ev τ)) :
    countFetches (.fetch c t :: tr) = countFetches tr + 1 := by
  simp [countFetches, List.countP_cons]

/-- A commit event does not count as a fetch. -/
theorem countFetches_cons_commit (τ : Type) (m : Content) (t : τ) (b : Bool)
    (tr : List (Ev τ)) :
    countFetches (.commit m t b :: tr) = countFetches tr := by
  simp [countFetches, List.countP_cons]

/-- Against a store that always conflicts (and contents that merge cleanly),
the retry loop makes exactly one fetch and one commit per unit of budget and
ends exhausted, having counted every attempt. -/
theorem retryGo_conflict_all (τ : Type) (store : Nat → StoreStep τ)
    (updates : Content) (spec : MergeKeySpec)
    (hc : ∀ i, (store i).commitResult = .error ())
    (hm : ∀ i, ∃ mm, compute_merged (store i).fetched updates spec = .ok mm) :
    ∀ fuel done,
      (retryGo store updates spec fuel done).2 =
        .contextUpdateExhausted (done + fuel) ∧
      countCommits (retryGo store updates spec fuel done).1 = fuel ∧
      countFetches (retryGo store updates spec fuel done).1 = fuel := by
  intro fuel
  induction fuel with
  | zero => exact fun done => ⟨rfl, rfl, rfl⟩
  | succ n ih =>
    intro done
    rcases hm done with ⟨mm, hmm⟩
    have hcd := hc done
    rcases ih (done + 1) with ⟨ih1, ih2, ih3⟩
    have heq : done + 1 + n = done + (n + 1) := by omega
    refine ⟨?_, ?_, ?_⟩
    · simp only [retryGo, hmm, hcd]
      rw [ih1, heq]
    · simp only [retryGo, hmm, hcd]
      rw [countCommits_cons_fetch, countCommits_cons_commit, ih2]
    · simp only [retryGo, hmm, hcd]
      rw [countFetches_cons_fetch, countFetches_cons_commit, ih3]

/-- Every trace the retry loop produces is fresh: each committed value is the
merge of the content fetched immediately before it, under that fetch's
token. -/
theorem retryGo_freshTrace (τ : Type) (store : Nat → StoreStep τ)
    (updates : Content) (spec : MergeKeySpec) :
    ∀ fuel done, FreshTrace updates spec (retryGo store updates spec fuel done).1 := by
  intro fuel
  induction fuel with
  | zero => exact fun done => .nil
  | succ n ih =>
    intro done
    cases hmm : compute_merged (store done).fetched updates spec with
    | error e =>
      simp only [retryGo, hmm]
      exact .fetchOnly _ _
    | ok mm =>
      cases hcr : (store done).commitResult with
      | ok t =>
        simp only [retryGo, hmm, hcr]
        exact .step _ _ _ _ _ hmm .nil
      | error u =>
        simp only [retryGo, hmm, hcr]
        exact .step _ _ _ _ _ hmm (ih (done + 1))

/-- An update list containing an entry without the declared id field makes
the whole merge fail with a `MergeKeyError`, whatever else the contents
hold. -/
theorem compute_merged_error_of_missing_id (current updates : Content)
    (spec : MergeKeySpec) (k f : String) (cur upd : List Entry) (e : Entry)
    (hnd : (updates.map Prod.fst).Nodup)
    (hspec : lookupS spec k = some f)
    (hcur : lookupC current k = some (.list cur))
    (hup : lookupC updates k = some (.list upd))
    (he : e ∈ upd) (hef : getField e f = none) :
    ∃ err, compute_merged current updates spec = .error err := by
  cases hok : compute_merged current updates spec with
  | error err => exact ⟨err, rfl⟩
  | ok m =>
    exfalso
    rcases lookupC_decomp updates k (.list upd) hnd hup with
      ⟨pre, post, hupdates, hpre, hpost⟩
    unfold compute_merged at hok
    rw [hupdates] at hok
    rcases foldlM_mergeOne_decomp spec current pre post _ current m hok with
      ⟨a₁, a₂, h1, h2, h3⟩
    unfold mergeOne at h2
    rw [show ((k, CtxVal.list upd) : String × CtxVal).1 = k from rfl] at h2
    simp only [hspec, hcur] at h2
    have hval : (upd.all fun x => (getField x f).isSome) = true → False := by
      intro hall
      have := List.all_eq_true.mp hall e he
      rw [hef] at this
      exact Bool.false_ne_true this
    unfold merge_lists at h2
    split at h2
    · rename_i hall
      exact hval hall
    · exact absurd h2 (by simp [Bind.bind, Except.bind])

/-! ### The claims -/

/-- Claim C1, counterexample: at the `test_merge_lists` data the id `11`
appears in both the current and the update list, yet the merged list holds
no entry of id `11` at all — in particular not the updates entry `tRem11` —
because that updates entry is remove-marked.  So "for every id present in
both lists the merged entry equals the updates entry" fails as stated. -/
theorem update_precedence_cex :
    (∃ e0 ∈ [tOld1, tOld2, tOld11], getField e0 "id" = some (.str "11")) ∧
    tRem11 ∈ [tNew1, tNew3, tRem11] ∧
    getField tRem11 "id" = some (.str "11") ∧
    compute_merged tCurrent tUpdates tSpec = .ok [("mirrors", .list tExpected)] ∧
    findById tExpected "id" (.str "11") = none ∧
    findById tExpected "id" (.str "11") ≠ some tRem11 := by
  exact ⟨by decide, by decide, rfl, rfl, rfl, by decide⟩

/-- Claim C1 (amended): for every merge-by-id key, and for every id that
appears in both the current list and the update list, the merged entry for
that id equals the entry from the updates list — provided the updates entry
carrying that id is not remove-marked (a remove-marked updates entry deletes
the id instead).  Ids of the update list are assumed pairwise distinct, as
they are for a Python dict-backed update. -/
theorem update_precedence (current updates : Content) (spec : MergeKeySpec)
    (k f : String) (cur upd : List Entry) (m : Content) (u : Entry) (i : JVal)
    (hnd : (updates.map Prod.fst).Nodup)
    (hspec : lookupS spec k = some f)
    (hcur : lookupC current k = some (.list cur))
    (hup : lookupC updates k = some (.list upd))
    (hok : compute_merged current updates spec = .ok m)
    (hidsnd : (upd.map fun e => getField e f).Nodup)
    (hu : u ∈ upd) (hui : getField u f = some i)
    (hrem : isRemove u = false)
    (_hex : ∃ e0 ∈ cur, getField e0 f = some i) :
    ∃ ml, lookupC m k = some (.list ml) ∧ findById ml f i = some u := by
  rcases compute_merged_lookup_merge current updates spec k f cur upd m
    hnd hup hspec hcur hok with ⟨-, hlook⟩
  refine ⟨mergeCore f cur upd, hlook, ?_⟩
  rcases List.append_of_mem hu with ⟨pre, post, rfl⟩
  have hnp : ∀ v ∈ post, getField v f ≠ some i := by
    intro v hv hvf
    have hmap : ((pre ++ u :: post).map fun e => getField e f).Nodup := hidsnd
    rw [List.map_append, List.map_cons] at hmap
    have hnotin := (List.nodup_cons.mp hmap.of_append_right).1
    exact hnotin (List.mem_map.mpr ⟨v, hv, by rw [hvf, hui]⟩)
  exact findById_mergeCore_update f cur pre post u i hui hrem hnp

/-- Claim C1, witness: at the `test_merge_lists` data, the non-remove update
entry of id 1 is what the merge stores at id 1. -/
theorem update_precedence_witness :
    (isRemove tNew1 = false ∧
      (∃ e0 ∈ [tOld1, tOld2, tOld11], getField e0 "id" = some (.str "1"))) ∧
    (∃ ml, lookupC [("mirrors", CtxVal.list tExpected)] "mirrors" =
        some (.list ml) ∧ findById ml "id" (.str "1") = some tNew1) := by
  refine ⟨⟨rfl, by decide⟩, ?_⟩
  exact update_precedence tCurrent tUpdates tSpec "mirrors" "id"
    [tOld1, tOld2, tOld11] [tNew1, tNew3, tRem11]
    [("mirrors", CtxVal.list tExpected)] tNew1 (.str "1")
    (by decide) rfl rfl rfl rfl (by decide) (by decide) rfl rfl
    ⟨tOld1, by decide, rfl⟩

/-- Claim C2: for every merge-by-id key, every entry of the current list
whose id appears nowhere in the updates list is present unchanged in the
merged list — the merge never deletes an entry the updates do not mention. -/
theorem non_destructive_merge (current updates : Content) (spec : MergeKeySpec)
    (k f : String) (cur upd : List Entry) (m : Content) (e : Entry)
    (hnd : (updates.map Prod.fst).Nodup)
    (hspec : lookupS spec k = some f)
    (hcur : lookupC current k = some (.list cur))
    (hup : lookupC updates k = some (.list upd))
    (hok : compute_merged current updates spec = .ok m)
    (he : e ∈ cur)
    (hid : getField e f ∉ upd.map fun x => getField x f) :
    ∃ ml, lookupC m k = some (.list ml) ∧ e ∈ ml := by
  rcases compute_merged_lookup_merge current updates spec k f cur upd m
    hnd hup hspec hcur hok with ⟨-, hlook⟩
  refine ⟨mergeCore f cur upd, hlook, ?_⟩
  exact mem_mergeCore_of_untouched f cur upd e he fun v hv hveq =>
    hid (List.mem_map.mpr ⟨v, hv, hveq⟩)

/-- Claim C2, witness: the untouched entry of id 2 of the `test_merge_lists`
data survives the merge unchanged. -/
theorem non_destructive_merge_witness :
    (getField tOld2 "id" ∉ [tNew1, tNew3, tRem11].map fun x => getField x "id") ∧
    (∃ ml, lookupC [("mirrors", CtxVal.list tExpected)] "mirrors" =
        some (.list ml) ∧ tOld2 ∈ ml) := by
  refine ⟨by decide, ?_⟩
  exact non_destructive_merge tCurrent tUpdates tSpec "mirrors" "id"
    [tOld1, tOld2, tOld11] [tNew1, tNew3, tRem11]
    [("mirrors", CtxVal.list tExpected)] tOld2
    (by decide) rfl rfl rfl rfl (by decide) (by decide)

/-- Claim C7, counterexample: a remove-marked update entry whose id exists in
the current list (so the updates contain "only existing or new ids") shrinks
the merged list below the current list's length, refuting
`len(merged) >= len(current)` as stated. -/
theorem append_only_growth_cex :
    (∃ e0 ∈ [tOld1], getField e0 "id" = getField tRem1 "id") ∧
    compute_merged remCurrent remUpdates tSpec = .ok [("mirrors", CtxVal.list [])] ∧
    lookupC [("mirrors", CtxVal.list [])] "mirrors" = some (.list []) ∧
    ([] : List Entry).length < [tOld1].length := by
  exact ⟨by decide, rfl, rfl, by decide⟩

/-- Claim C7 (amended): for every merge-by-id key, when no entry of the
update list is remove-marked, the merged list is at least as long as the
current list — the merge path without removals never shrinks the list. -/
theorem append_only_growth (current updates : Content) (spec : MergeKeySpec)
    (k f : String) (cur upd : List Entry) (m : Content)
    (hnd : (updates.map Prod.fst).Nodup)
    (hspec : lookupS spec k = some f)
    (hcur : lookupC current k = some (.list cur))
    (hup : lookupC updates k = some (.list upd))
    (hok : compute_merged current updates spec = .ok m)
    (hnorem : ∀ v ∈ upd, isRemove v = false) :
    ∃ ml, lookupC m k = some (.list ml) ∧ cur.length ≤ ml.length := by
  rcases compute_merged_lookup_merge current updates spec k f cur upd m
    hnd hup hspec hcur hok with ⟨-, hlook⟩
  exact ⟨mergeCore f cur upd, hlook, length_le_mergeCore f cur upd hnorem⟩

/-- Claim C7, witness: replacing id 1 and appending id 3 (no removes) grows
the three-entry current list to four entries. -/
theorem append_only_growth_witness :
    ∃ ml, lookupC [("mirrors", CtxVal.list [tNew1, tOld2, tOld11, tNew3])]
        "mirrors" = some (.list ml) ∧
      ([tOld1, tOld2, tOld11] : List Entry).length ≤ ml.length := by
  exact append_only_growth tCurrent growUpdates tSpec "mirrors" "id"
    [tOld1, tOld2, tOld11] [tNew1, tNew3]
    [("mirrors", CtxVal.list [tNew1, tOld2, tOld11, tNew3])]
    (by decide) rfl rfl rfl rfl (by decide)

/-- Claim C9: a remove-marked update entry whose id matches an existing entry
deletes that id from the merged list — the id appears neither in its old nor
in its updated form (so the merged list can be strictly shorter than the
current one, as the witness shows). -/
theorem remove_deletes_entry (current updates : Content) (spec : MergeKeySpec)
    (k f : String) (cur upd : List Entry) (m : Content) (u : Entry) (i : JVal)
    (hnd : (updates.map Prod.fst).Nodup)
    (hspec : lookupS spec k = some f)
    (hcur : lookupC current k = some (.list cur))
    (hup : lookupC updates k = some (.list upd))
    (hok : compute_merged current updates spec = .ok m)
    (hidsnd : (upd.map fun e => getField e f).Nodup)
    (hu : u ∈ upd) (hui : getField u f = some i)
    (hrem : isRemove u = true)
    (_hex : ∃ e0 ∈ cur, getField e0 f = some i) :
    ∃ ml, lookupC m k = some (.list ml) ∧ findById ml f i = none := by
  rcases compute_merged_lookup_merge current updates spec k f cur upd m
    hnd hup hspec hcur hok with ⟨-, hlook⟩
  refine ⟨mergeCore f cur upd, hlook, ?_⟩
  rcases List.append_of_mem hu with ⟨pre, post, rfl⟩
  have hnp : ∀ v ∈ post, getField v f ≠ some i := by
    intro v hv hvf
    have hmap : ((pre ++ u :: post).map fun e => getField e f).Nodup := hidsnd
    rw [List.map_append, List.map_cons] at hmap
    have hnotin := (List.nodup_cons.mp hmap.of_append_right).1
    exact hnotin (List.mem_map.mpr ⟨v, hv, by rw [hvf, hui]⟩)
  exact findById_mergeCore_remove f cur pre post u i hui hrem hnp

/-- Claim C9, witness: remove-marking the only entry empties the merged list,
which is strictly shorter than the current list. -/
theorem remove_deletes_entry_witness :
    (isRemove tRem1 = true ∧ ([] : List Entry).length < [tOld1].length) ∧
    (∃ ml, lookupC [("mirrors", CtxVal.list [])] "mirrors" = some (.list ml) ∧
      findById ml "id" (.str "1") = none) := by
  refine ⟨⟨rfl, by decide⟩, ?_⟩
  exact remove_deletes_entry remCurrent remUpdates tSpec "mirrors" "id"
    [tOld1] [tRem1] [("mirrors", CtxVal.list [])] tRem1 (.str "1")
    (by decide) rfl rfl rfl rfl (by decide) (by decide) rfl rfl
    ⟨tOld1, by decide, rfl⟩

/-- Claim C3: against a store that reports a conflict on every commit
attempt (and contents that merge cleanly), the retry protocol with
`max_attempts = N` makes exactly `N` commit attempts — not `N + 1`, not
`N - 1` — and then fails with `ContextUpdateExhausted` carrying `N`. -/
theorem bounded_attempts (τ : Type) (store : Nat → StoreStep τ)
    (updates : Content) (spec : MergeKeySpec) (N : Nat)
    (hc : ∀ i, (store i).commitResult = .error ())
    (hm : ∀ i, ∃ mm, compute_merged (store i).fetched updates spec = .ok mm) :
    (set_to_integration_context_with_retries store updates spec N).2 =
      .contextUpdateExhausted N ∧
    countCommits (set_to_integration_context_with_retries store updates spec N).1 = N := by
  rcases retryGo_conflict_all τ store updates spec hc hm N 0 with ⟨h1, h2, -⟩
  rw [Nat.zero_add] at h1
  exact ⟨h1, h2⟩

/-- Claim C3, witness: three attempts against the always-conflicting store
produce exactly three commits and exhaustion at three. -/
theorem bounded_attempts_witness :
    (set_to_integration_context_with_retries alwaysConflictStore [] [] 3).2 =
      .contextUpdateExhausted 3 ∧
    countCommits (set_to_integration_context_with_retries alwaysConflictStore [] [] 3).1 = 3 :=
  bounded_attempts Int alwaysConflictStore [] [] 3 (fun _ => rfl)
    (fun _ => ⟨[], rfl⟩)

/-- Claim C4: every trace of `set_to_integration_context_with_retries` is
fresh — after each conflict the next attempt fetches again, and every
committed value is `compute_merged` of the content fetched immediately
before that very commit (under that fetch's token); no commit re-submits a
merge of a previously fetched, stale content. -/
theorem retry_refetches_fresh (τ : Type) (store : Nat → StoreStep τ)
    (updates : Content) (spec : MergeKeySpec) (N : Nat) :
    FreshTrace updates spec
      (set_to_integration_context_with_retries store updates spec N).1 :=
  retryGo_freshTrace τ store updates spec N 0

/-- Claim C6: when the store conflicts on the first commit and accepts the
second, the protocol performs exactly two fetches and two commits and
returns the token produced by the second commit. -/
theorem conflict_then_success (τ : Type) (store : Nat → StoreStep τ)
    (updates : Content) (spec : MergeKeySpec) (maxAttempts : Nat)
    (m₀ m₁ : Content) (t : τ)
    (hm0 : compute_merged (store 0).fetched updates spec = .ok m₀)
    (hc0 : (store 0).commitResult = .error ())
    (hm1 : compute_merged (store 1).fetched updates spec = .ok m₁)
    (hc1 : (store 1).commitResult = .ok t)
    (hmax : 2 ≤ maxAttempts) :
    (set_to_integration_context_with_retries store updates spec maxAttempts).2 =
      .success t ∧
    countFetches (set_to_integration_context_with_retries store updates spec maxAttempts).1 = 2 ∧
    countCommits (set_to_integration_context_with_retries store updates spec maxAttempts).1 = 2 := by
  obtain ⟨n, rfl⟩ : ∃ n, maxAttempts = n + 2 := ⟨maxAttempts - 2, by omega⟩
  have hshape : retryGo store updates spec (n + 2) 0 =
      ([.fetch (store 0).fetched (store 0).token,
        .commit m₀ (store 0).token false,
        .fetch (store 1).fetched (store 1).token,
        .commit m₁ (store 1).token true], .success t) := by
    show retryGo store updates spec (n + 1 + 1) 0 = _
    simp only [retryGo, hm0, hc0, Nat.zero_add, hm1, hc1]
  unfold set_to_integration_context_with_retries
  rw [hshape]
  refine ⟨rfl, ?_, ?_⟩
  · show countFetches [Ev.fetch (store 0).fetched (store 0).token,
      .commit m₀ (store 0).token false,
      .fetch (store 1).fetched (store 1).token,
      .commit m₁ (store 1).token true] = 2
    rw [countFetches_cons_fetch, countFetches_cons_commit,
      countFetches_cons_fetch, countFetches_cons_commit]
    rfl
  · show countCommits [Ev.fetch (store 0).fetched (store 0).token,
      .commit m₀ (store 0).token false,
      .fetch (store 1).fetched (store 1).token,
      .commit m₁ (store 1).token true] = 2
    rw [countCommits_cons_fetch, countCommits_cons_commit,
      countCommits_cons_fetch, countCommits_cons_commit]
    rfl

/-- Claim C6, witness: the two-step store conflicts once, then accepts with
token 7, which the protocol returns after two fetches and two commits. -/
theorem conflict_then_success_witness :
    (set_to_integration_context_with_retries twoStepStore [] [] 2).2 =
      .success 7 ∧
    countFetches (set_to_integration_context_with_retries twoStepStore [] [] 2).1 = 2 ∧
    countCommits (set_to_integration_context_with_retries twoStepStore [] [] 2).1 = 2 :=
  conflict_then_success Int twoStepStore [] [] 2 [] [] 7 rfl rfl rfl rfl
    (by decide)

/-- Claim C8: an updates entry for a merge-by-id key that is missing the
declared id field makes the operation fail fast with `MergeKeyError`: the
run ends at the first fetch with a merge error, zero commit attempts are
made and nothing is written. -/
theorem merge_key_error_fail_fast (τ : Type) (store : Nat → StoreStep τ)
    (updates : Content) (spec : MergeKeySpec) (maxAttempts : Nat)
    (k f : String) (cur upd : List Entry) (e : Entry)
    (hmax : 1 ≤ maxAttempts)
    (hnd : (updates.map Prod.fst).Nodup)
    (hspec : lookupS spec k = some f)
    (hcur : lookupC (store 0).fetched k = some (.list cur))
    (hup : lookupC updates k = some (.list upd))
    (he : e ∈ upd) (hef : getField e f = none) :
    ∃ err, set_to_integration_context_with_retries store updates spec maxAttempts =
        ([.fetch (store 0).fetched (store 0).token], .mergeError err) ∧
      countCommits (set_to_integration_context_with_retries store updates spec maxAttempts).1 = 0 := by
  rcases compute_merged_error_of_missing_id (store 0).fetched updates spec
    k f cur upd e hnd hspec hcur hup he hef with ⟨err, herr⟩
  obtain ⟨n, rfl⟩ : ∃ n, maxAttempts = n + 1 := ⟨maxAttempts - 1, by omega⟩
  have hshape : retryGo store updates spec (n + 1) 0 =
      ([.fetch (store 0).fetched (store 0).token], .mergeError err) := by
    simp only [retryGo, herr]
  refine ⟨err, ?_, ?_⟩
  · unfold set_to_integration_context_with_retries
    exact hshape
  · unfold set_to_integration_context_with_retries
    rw [hshape, countCommits_cons_fetch]
    rfl

/-- Claim C8, witness: an update entry for `mirrors` without the `id` field
stops the run at the first fetch with a merge error and zero commits. -/
theorem merge_key_error_fail_fast_witness :
    ∃ err, set_to_integration_context_with_retries mirrorsStore badUpdates tSpec 1 =
        ([.fetch (mirrorsStore 0).fetched (mirrorsStore 0).token], .mergeError err) ∧
      countCommits (set_to_integration_context_with_retries mirrorsStore badUpdates tSpec 1).1 = 0 :=
  merge_key_error_fail_fast Int mirrorsStore badUpdates tSpec 1 "mirrors" "id"
    [tOld1] [[("updated", .str "y")]] [("updated", .str "y")]
    (by decide) (by decide) rfl rfl rfl (by decide) rfl

/-- Claim C5, counterexample: a write presenting the version `-1` — a token
not strictly newer than the store's current version 5 — commits instead of
being rejected: the sentinel `-1` bypasses the stale-token check. -/
theorem version_token_cex :
    ((-1 : Int) ≤ 5) ∧
    set_integration_context_versioned ⟨[], 5⟩ [("k", .scalar (.num 1))] (-1) =
      .ok ⟨[("k", .scalar (.num 1))], 6⟩ := by
  exact ⟨by decide, rfl⟩

/-- Claim C5 (amended): every successful write to the versioned store
strictly increases the stored version, and every write presenting a stale
version other than the sentinel `-1` (one not strictly newer than the
store's current version) is rejected with the version-mismatch error instead
of committing. -/
theorem version_token_invariant (st : VStore) (ctx : Content) (ver : Int) :
    (∀ st', set_integration_context_versioned st ctx ver = .ok st' →
      st.version < st'.version) ∧
    (ver ≠ -1 → ver ≤ st.version →
      set_integration_context_versioned st ctx ver =
        .error (.dbInsertVersionMismatch st.version ver)) := by
  constructor
  · intro st' h
    simp only [set_integration_context_versioned] at h
    split at h
    · exact absurd h (by simp)
    · have hst : st' = { context := ctx, version := st.version + 1 } :=
        (Except.ok.inj h).symm
      rw [hst]
      show st.version < st.version + 1
      omega
  · intro h1 h2
    simp only [set_integration_context_versioned]
    rw [if_pos ⟨h1, h2⟩]

/-- Claim C5, witness: presenting the stale version 3 to a store at version
5 is rejected with the version-mismatch error. -/
theorem version_token_witness :
    ((3 : Int) ≠ -1 ∧ (3 : Int) ≤ (5 : Int)) ∧
    set_integration_context_versioned ⟨[], 5⟩ [] 3 =
      .error (.dbInsertVersionMismatch 5 3) :=
  ⟨⟨by decide, by decide⟩,
    (version_token_invariant ⟨[], 5⟩ [] 3).2 (by decide) (by decide)⟩

/-- Claim C10: below server version 6.0.0 the versioned store is
unavailable, `get_integration_context_with_version` returns the sentinel
version `-1`, and a write presenting `-1` bypasses the stale-token check
and commits unconditionally — last-writer-wins. -/
theorem sentinel_disables_conflict_check (v : ServerVersion) (st : VStore)
    (hv : is_versioned_context_available v = false) :
    (get_integration_context_with_version v st).2 = -1 ∧
    (∀ (st₀ : VStore) (ctx : Content),
      set_integration_context_versioned st₀ ctx (-1) =
        .ok { context := ctx, version := st₀.version + 1 }) := by
  constructor
  · unfold get_integration_context_with_version
    rw [hv]
    simp
  · intro st₀ ctx
    simp only [set_integration_context_versioned]
    rw [if_neg (by simp)]

/-- Claim C10, witness: at server version 5.5.0 the read returns version
`-1`, and the `-1` write overwrites a store at version 7 unconditionally. -/
theorem sentinel_disables_conflict_check_witness :
    is_versioned_context_available (5, 5, 0) = false ∧
    (get_integration_context_with_version (5, 5, 0) ⟨[], 7⟩).2 = -1 ∧
    set_integration_context_versioned ⟨[], 7⟩ [("k", .scalar (.num 2))] (-1) =
      .ok ⟨[("k", .scalar (.num 2))], 8⟩ := by
  refine ⟨rfl, (sentinel_disables_conflict_check (5, 5, 0) ⟨[], 7⟩ rfl).1, ?_⟩
  exact (sentinel_disables_conflict_check (5, 5, 0) ⟨[], 7⟩ rfl).2 ⟨[], 7⟩
    [("k", .scalar (.num 2))]

end ContentCtx
